import Mathlib

/-!
Shallow embedding of the account store and credential-migration logic of
the SmartHarvest portal (source file `src/app.py`).

Python strings are embedded as `List Char`.  The `bcrypt` library calls of
the source (`bcrypt.hashpw`, `bcrypt.gensalt`, `bcrypt.checkpw`) are
modelled by an executable hasher keeping the behaviours the code depends
on: a produced hash carries the `$2b$` version tag and embeds its salt, a
hash verifies exactly the password it was produced from, `checkpw` raises
`ValueError` (modelled as `Except.error ()`) on a string that is not a
bcrypt hash, both `hashpw` and `checkpw` raise `ValueError` when an
input contains a NUL byte (python bcrypt refuses NUL-containing inputs),
and only the first 72 bytes of the password enter the hash — python
bcrypt silently ignores everything beyond them, in `hashpw` and therefore
also in `checkpw` (characters stand in for bytes here, as all inputs of
interest are one byte per character).
The randomness of `bcrypt.gensalt()` is threaded explicitly as an oracle
`g : Nat → Nat` together with a counter `k` that advances at each call.

The persisted `users/users.csv` file is embedded as
`Option (List UserRec)`: `none` when the file is absent, `some rows` for a
present file holding the header line and `rows`.
-/

namespace SmartHarvest

/-- Python `str`, embedded as a list of characters. -/
abbrev Str := List Char

/-- The NUL character; python bcrypt raises `ValueError` on inputs
containing it. -/
def NUL : Char := Char.ofNat 0

/-- One data row of `users.csv`: columns `username`, `password`. -/
structure UserRec where
  username : Str
  password : Str
deriving DecidableEq

/-- Marker sniffed by the migration pass of `load_users`
(source comment: bcrypt hashes start with `$2b$`, `$2a$` or `$2y$`);
the code tests `pwd.startswith` on the two characters `$2`. -/
def hashMarker : Str := ['$', '2']

/-- Version tag of every hash produced by `bcrypt.hashpw` in this model. -/
def bcryptMagic : Str := ['$', '2', 'b', '$']

/-- A modelled bcrypt hash: version tag, salt material (unary), separator,
then the key material derived from the password. -/
def mkHash (salt : Nat) (pwd : Str) : Str :=
  bcryptMagic ++ List.replicate salt 's' ++ '$' :: pwd

/-- Model of `bcrypt.hashpw(pwd, salt)`: raises on NUL bytes anywhere in
the password, otherwise hashes only its first 72 bytes (bcrypt truncates
the password to 72 bytes before hashing). -/
def hashpw (pwd : Str) (salt : Nat) : Except Unit Str :=
  if NUL ∈ pwd then .error () else .ok (mkHash salt (pwd.take 72))

/-- Recover the salt and key material from a well-formed modelled hash;
`none` on anything `bcrypt.hashpw` cannot have produced. -/
def parseHash (h : Str) : Option (Nat × Str) :=
  if bcryptMagic.isPrefixOf h then
    let rest := h.drop 4
    let saltPart := rest.takeWhile (fun c => c == 's')
    match rest.drop saltPart.length with
    | '$' :: pwd => some (saltPart.length, pwd)
    | _ => none
  else none

/-- Model of `bcrypt.checkpw(pwd, h)`: raises `ValueError` on NUL bytes or
on a malformed hash, otherwise reports whether re-hashing `pwd` with the
salt embedded in `h` reproduces `h`; like `hashpw`, only the first 72
bytes of the password take part. -/
def checkpw (pwd h : Str) : Except Unit Bool :=
  if NUL ∈ pwd ∨ NUL ∈ h then .error ()
  else
    match parseHash h with
    | some sp => .ok (mkHash sp.1 (pwd.take 72) == h)
    | none => .error ()

/-- Embeds `hash_password` (src/app.py lines 24-25): bcrypt-hash the
password with a fresh salt `g k`. -/
def hash_password (g : Nat → Nat) (k : Nat) (password : Str) : Except Unit Str :=
  hashpw password (g k)

/-- Embeds `check_password` (src/app.py lines 27-28): a bare
`bcrypt.checkpw` call, no exception handling. -/
def check_password (password hashed : Str) : Except Unit Bool :=
  checkpw password hashed

/-- State of the persisted user table `users/users.csv`. -/
structure FS where
  usersFile : Option (List UserRec)
deriving DecidableEq

/-- One iteration of the migration loop of `load_users` (src/app.py lines
51-62): a row whose password field does not start with `$2` is treated as
legacy plaintext and re-hashed; if hashing raises, the `try`/`except`
leaves the row as it is.  `bcrypt.gensalt()` is evaluated before `hashpw`
raises, so the salt counter advances in both branches.  The `Bool` is the
contribution to the `changed` flag. -/
def migrateRow (g : Nat → Nat) (k : Nat) (r : UserRec) : UserRec × Bool × Nat :=
  if hashMarker.isPrefixOf r.password then (r, false, k)
  else
    match hashpw r.password (g k) with
    | .ok h => ({ r with password := h }, true, k + 1)
    | .error _ => (r, false, k + 1)

/-- The whole migration loop of `load_users` over the rows of the table,
threading the salt counter; the `Bool` is the `changed` flag. -/
def migrateRows (g : Nat → Nat) (k : Nat) : List UserRec → List UserRec × Bool × Nat
  | [] => ([], false, k)
  | r :: rs =>
    let p := migrateRow g k r
    let q := migrateRows g p.2.2 rs
    (p.1 :: q.1, p.2.1 || q.2.1, q.2.2)

/-- Embeds `load_users` (src/app.py lines 45-66): absent file gives the
empty table; otherwise the table is read, the migration pass runs, and the
file is rewritten exactly when the `changed` flag is set
(write-back-on-read).  Returns the table handed to the caller, the file
state afterwards, and the advanced salt counter. -/
def load_users (g : Nat → Nat) (k : Nat) (fs : FS) : List UserRec × FS × Nat :=
  match fs.usersFile with
  | some rows =>
    let m := migrateRows g k rows
    (m.1, if m.2.1 then ⟨some m.1⟩ else fs, m.2.2)
  | none => ([], fs, k)

/-- Embeds `save_users` (src/app.py lines 68-69): overwrite `users.csv`
with the given table. -/
def save_users (df : List UserRec) : FS :=
  ⟨some df⟩

/-- Embeds `register_user` (src/app.py lines 74-85).  The first component
is the boolean the function returns (`.ok false` is the
username-already-exists outcome, `.error` the propagated exception when
`hash_password` raises); the other components are the file state and the
salt counter when control leaves the function.  The `get_user_path` call
only touches the per-user directory, which is outside the user table and
not part of this state. -/
def register_user (g : Nat → Nat) (k : Nat) (fs : FS) (username password : Str) :
    Except Unit Bool × FS × Nat :=
  let l := load_users g k fs
  if username ∈ l.1.map (fun r => r.username) then (.ok false, l.2.1, l.2.2)
  else
    match hash_password g l.2.2 password with
    | .ok hashed => (.ok true, save_users (l.1 ++ [⟨username, hashed⟩]), l.2.2 + 1)
    | .error e => (.error e, l.2.1, l.2.2 + 1)

/-- Embeds `login_user` (src/app.py lines 87-94): load (possibly
migrating), take the first row whose username matches, and run
`check_password` on it; `.error` when `check_password` raises. -/
def login_user (g : Nat → Nat) (k : Nat) (fs : FS) (username password : Str) :
    Except Unit Bool × FS × Nat :=
  let l := load_users g k fs
  match l.1.find? (fun r => r.username == username) with
  | some r =>
    match check_password password r.password with
    | .ok b => (.ok b, l.2.1, l.2.2)
    | .error e => (.error e, l.2.1, l.2.2)
  | none => (.ok false, l.2.1, l.2.2)

/-- Usernames stored in the users file. -/
def usernames (fs : FS) : List Str :=
  (fs.usersFile.getD []).map (fun r => r.username)

/-- Uniqueness invariant of the spec (section 3): no two rows of the
persisted table share a username. -/
def UsersInv (fs : FS) : Prop :=
  (usernames fs).Nodup

/-- Rows the migration pass leaves alone: already `$2`-marked, or
un-hashable because of a NUL byte. -/
def untouched (r : UserRec) : Bool :=
  hashMarker.isPrefixOf r.password || decide (NUL ∈ r.password)

/-- Relation between a stored row and the row the migration pass makes of
it: same username, and the password field is either kept or replaced by a
hash of the stored legacy value. -/
def migratedFrom (r r2 : UserRec) : Prop :=
  r2.username = r.username ∧
  (r2 = r ∨ ∃ s, hashMarker.isPrefixOf r.password = false ∧ NUL ∉ r.password ∧
      r2.password = mkHash s (r.password.take 72))

/-! Basic facts about the modelled hasher. -/

theorem mkHash_marker (s : Nat) (p : Str) :
    hashMarker.isPrefixOf (mkHash s p) = true := rfl

theorem NUL_not_mem_mkHash {p : Str} (hp : NUL ∉ p) (s : Nat) :
    NUL ∉ mkHash s p := by
  unfold mkHash
  intro hmem
  rcases List.mem_append.1 hmem with h | h
  · rcases List.mem_append.1 h with h2 | h2
    · exact absurd h2 (by decide)
    · exact absurd (List.eq_of_mem_replicate h2) (by decide)
  · rcases List.mem_cons.1 h with h3 | h3
    · exact absurd h3 (by decide)
    · exact hp h3

theorem mkHash_inj {s : Nat} {a b : Str} (h : mkHash s a = mkHash s b) : a = b := by
  have h2 : '$' :: a = '$' :: b := by
    simpa [mkHash] using h
  exact (List.cons_eq_cons.mp h2).2

theorem takeWhile_salt (s : Nat) (p : Str) :
    (List.replicate s 's' ++ '$' :: p).takeWhile (fun c => c == 's') =
      List.replicate s 's' := by
  induction s with
  | zero => rfl
  | succ n ih =>
    simp only [List.replicate_succ, List.cons_append, List.takeWhile_cons]
    simp [ih]

theorem parse_mkHash (s : Nat) (p : Str) : parseHash (mkHash s p) = some (s, p) := by
  have hpre : bcryptMagic.isPrefixOf (mkHash s p) = true := by simp [mkHash]
  have hdrop : (mkHash s p).drop 4 = List.replicate s 's' ++ '$' :: p := rfl
  have hdrop2 : List.drop s (List.replicate s 's' ++ '$' :: p) = '$' :: p := by
    have h := List.drop_left (List.replicate s 's') ('$' :: p)
    rwa [List.length_replicate] at h
  simp only [parseHash, hpre, if_true, hdrop, takeWhile_salt,
    List.length_replicate, hdrop2]

theorem checkpw_mkHash {p : Str} (hp : NUL ∉ p) (s : Nat) :
    checkpw p (mkHash s (p.take 72)) = .ok true := by
  have hp72 : NUL ∉ p.take 72 := fun h => hp (List.take_subset _ _ h)
  unfold checkpw
  rw [if_neg (by push_neg; exact ⟨hp, NUL_not_mem_mkHash hp72 s⟩)]
  simp [parse_mkHash]

theorem checkpw_mkHash_ne {q p : Str} (hq : NUL ∉ q) (hp : NUL ∉ p)
    (hne : q.take 72 ≠ p.take 72) (s : Nat) :
    checkpw q (mkHash s (p.take 72)) = .ok false := by
  have hp72 : NUL ∉ p.take 72 := fun h => hp (List.take_subset _ _ h)
  unfold checkpw
  rw [if_neg (by push_neg; exact ⟨hq, NUL_not_mem_mkHash hp72 s⟩)]
  simp only [parse_mkHash]
  have : mkHash s (q.take 72) ≠ mkHash s (p.take 72) := fun h => hne (mkHash_inj h)
  simp [this]

/-! Facts about the migration pass. -/

theorem bool_eq_false {b : Bool} (h : ¬ b = true) : b = false := by
  cases b
  · rfl
  · exact absurd rfl h

theorem migrateRow_of_marker (g : Nat → Nat) (k : Nat) {r : UserRec}
    (h : hashMarker.isPrefixOf r.password = true) :
    migrateRow g k r = (r, false, k) := by
  unfold migrateRow
  rw [if_pos h]

theorem migrateRow_of_legacy (g : Nat → Nat) (k : Nat) {r : UserRec}
    (h1 : hashMarker.isPrefixOf r.password = false) (h2 : NUL ∉ r.password) :
    migrateRow g k r =
      (⟨r.username, mkHash (g k) (r.password.take 72)⟩, true, k + 1) := by
  unfold migrateRow hashpw
  rw [if_neg (by simp [h1]), if_neg h2]

theorem migrateRow_of_bad (g : Nat → Nat) (k : Nat) {r : UserRec}
    (h1 : hashMarker.isPrefixOf r.password = false) (h2 : NUL ∈ r.password) :
    migrateRow g k r = (r, false, k + 1) := by
  unfold migrateRow hashpw
  rw [if_neg (by simp [h1]), if_pos h2]

theorem migrateRow_username (g : Nat → Nat) (k : Nat) (r : UserRec) :
    (migrateRow g k r).1.username = r.username := by
  by_cases hm : hashMarker.isPrefixOf r.password = true
  · rw [migrateRow_of_marker g k hm]
  · have h1 : hashMarker.isPrefixOf r.password = false := bool_eq_false hm
    by_cases h2 : NUL ∈ r.password
    · rw [migrateRow_of_bad g k h1 h2]
    · rw [migrateRow_of_legacy g k h1 h2]

theorem untouched_migrateRow (g : Nat → Nat) (k : Nat) (r : UserRec) :
    untouched (migrateRow g k r).1 = true := by
  by_cases hm : hashMarker.isPrefixOf r.password = true
  · rw [migrateRow_of_marker g k hm]
    simp [untouched, hm]
  · have h1 : hashMarker.isPrefixOf r.password = false := bool_eq_false hm
    by_cases h2 : NUL ∈ r.password
    · rw [migrateRow_of_bad g k h1 h2]
      simp [untouched, h2]
    · rw [migrateRow_of_legacy g k h1 h2]
      simp [untouched, mkHash_marker]

theorem migrateRow_of_untouched (g : Nat → Nat) (k : Nat) {r : UserRec}
    (h : untouched r = true) :
    (migrateRow g k r).1 = r ∧ (migrateRow g k r).2.1 = false := by
  by_cases hm : hashMarker.isPrefixOf r.password = true
  · rw [migrateRow_of_marker g k hm]
    exact ⟨rfl, rfl⟩
  · have h1 : hashMarker.isPrefixOf r.password = false := bool_eq_false hm
    have h2 : NUL ∈ r.password := by
      unfold untouched at h
      rw [Bool.or_eq_true] at h
      rcases h with hx | hx
      · exact absurd hx hm
      · exact of_decide_eq_true hx
    rw [migrateRow_of_bad g k h1 h2]
    exact ⟨rfl, rfl⟩

theorem migrateRows_nil (g : Nat → Nat) (k : Nat) :
    migrateRows g k [] = ([], false, k) := rfl

theorem migrateRows_cons (g : Nat → Nat) (k : Nat) (r : UserRec) (rs : List UserRec) :
    migrateRows g k (r :: rs) =
      ((migrateRow g k r).1 :: (migrateRows g (migrateRow g k r).2.2 rs).1,
       (migrateRow g k r).2.1 || (migrateRows g (migrateRow g k r).2.2 rs).2.1,
       (migrateRows g (migrateRow g k r).2.2 rs).2.2) := rfl

theorem migrateRows_usernames (g : Nat → Nat) (rows : List UserRec) : ∀ k : Nat,
    (migrateRows g k rows).1.map (fun r => r.username) =
      rows.map (fun r => r.username) := by
  induction rows with
  | nil => intro k; rfl
  | cons r rs ih =>
    intro k
    rw [migrateRows_cons]
    simp only [List.map_cons, migrateRow_username, ih]

theorem migrateRows_untouched (g : Nat → Nat) (rows : List UserRec) : ∀ k : Nat,
    ∀ x ∈ (migrateRows g k rows).1, untouched x = true := by
  induction rows with
  | nil => intro k x hx; simp [migrateRows_nil] at hx
  | cons r rs ih =>
    intro k x hx
    rw [migrateRows_cons] at hx
    rcases List.mem_cons.1 hx with h | h
    · subst h; exact untouched_migrateRow g k r
    · exact ih _ x h

theorem migrateRows_id (g : Nat → Nat) (rows : List UserRec) : ∀ k : Nat,
    (∀ x ∈ rows, untouched x = true) →
    (migrateRows g k rows).1 = rows ∧ (migrateRows g k rows).2.1 = false := by
  induction rows with
  | nil => intro k _; exact ⟨rfl, rfl⟩
  | cons r rs ih =>
    intro k h
    have hr := migrateRow_of_untouched g k (h r (List.mem_cons_self r rs))
    have hrs := ih (migrateRow g k r).2.2 (fun x hx => h x (List.mem_cons_of_mem r hx))
    rw [migrateRows_cons]
    refine ⟨?_, ?_⟩
    · rw [hr.1, hrs.1]
    · rw [hr.2, hrs.2]
      rfl

theorem migrateRows_append (g : Nat → Nat) (xs ys : List UserRec) : ∀ k : Nat,
    migrateRows g k (xs ++ ys) =
      ((migrateRows g k xs).1 ++ (migrateRows g (migrateRows g k xs).2.2 ys).1,
       (migrateRows g k xs).2.1 || (migrateRows g (migrateRows g k xs).2.2 ys).2.1,
       (migrateRows g (migrateRows g k xs).2.2 ys).2.2) := by
  induction xs with
  | nil => intro k; rfl
  | cons r rs ih =>
    intro k
    rw [List.cons_append, migrateRows_cons, ih, migrateRows_cons]
    simp [Bool.or_assoc]

theorem migratedFrom_refl (r : UserRec) : migratedFrom r r := ⟨rfl, Or.inl rfl⟩

theorem migrateRows_migratedFrom (g : Nat → Nat) (rows : List UserRec) : ∀ k : Nat,
    List.Forall₂ migratedFrom rows (migrateRows g k rows).1 := by
  induction rows with
  | nil => intro k; exact List.Forall₂.nil
  | cons r rs ih =>
    intro k
    rw [migrateRows_cons]
    refine List.Forall₂.cons ?_ (ih _)
    by_cases hm : hashMarker.isPrefixOf r.password = true
    · rw [migrateRow_of_marker g k hm]
      exact migratedFrom_refl r
    · have h1 : hashMarker.isPrefixOf r.password = false := bool_eq_false hm
      by_cases h2 : NUL ∈ r.password
      · rw [migrateRow_of_bad g k h1 h2]
        exact migratedFrom_refl r
      · rw [migrateRow_of_legacy g k h1 h2]
        exact ⟨rfl, Or.inr ⟨g k, h1, h2, rfl⟩⟩

/-! Facts about load, save, register and login. -/

theorem load_users_none (g : Nat → Nat) (k : Nat) :
    load_users g k ⟨none⟩ = ([], ⟨none⟩, k) := rfl

theorem load_users_some (g : Nat → Nat) (k : Nat) (rows : List UserRec) :
    load_users g k ⟨some rows⟩ =
      ((migrateRows g k rows).1,
       if (migrateRows g k rows).2.1 then ⟨some (migrateRows g k rows).1⟩
       else ⟨some rows⟩,
       (migrateRows g k rows).2.2) := rfl

theorem load_users_table_usernames (g : Nat → Nat) (k : Nat) (fs : FS) :
    (load_users g k fs).1.map (fun r => r.username) = usernames fs := by
  rcases fs with ⟨fOpt⟩
  cases fOpt with
  | none => rfl
  | some rows =>
    rw [load_users_some]
    exact migrateRows_usernames g rows k

theorem load_users_untouched (g : Nat → Nat) (k : Nat) (fs : FS) :
    ∀ x ∈ (load_users g k fs).1, untouched x = true := by
  rcases fs with ⟨fOpt⟩
  cases fOpt with
  | none => intro x hx; simp [load_users_none] at hx
  | some rows =>
    rw [load_users_some]
    exact migrateRows_untouched g rows k

theorem load_users_clean (g : Nat → Nat) (k : Nat) (rows : List UserRec)
    (h : ∀ x ∈ rows, untouched x = true) :
    (load_users g k ⟨some rows⟩).1 = rows ∧
      (load_users g k ⟨some rows⟩).2.1 = ⟨some rows⟩ := by
  have hm := migrateRows_id g rows k h
  constructor
  · rw [load_users_some]
    exact hm.1
  · rw [load_users_some]
    simp [hm.2]

theorem find?_append_first (q : UserRec → Bool) (xs ys : List UserRec) (r : UserRec)
    (hxs : ∀ x ∈ xs, q x = false) (hr : q r = true) :
    (xs ++ r :: ys).find? q = some r := by
  rw [List.find?_append]
  have h1 : xs.find? q = none := List.find?_eq_none.mpr (fun x hx => by simp [hxs x hx])
  rw [h1]
  exact List.find?_cons_of_pos ys hr

theorem login_user_fst (g : Nat → Nat) (k : Nat) (fs : FS) (u p : Str) :
    (login_user g k fs u p).1 =
      match (load_users g k fs).1.find? (fun r => r.username == u) with
      | some r => check_password p r.password
      | none => .ok false := by
  simp only [login_user]
  cases hf : (load_users g k fs).1.find? (fun r => r.username == u) with
  | none => rfl
  | some r =>
    cases hc : check_password p r.password with
    | error e => simp [hc]
    | ok b => simp [hc]

theorem register_user_exists (g : Nat → Nat) (k : Nat) (fs : FS) {u : Str} (p : Str)
    (hu : u ∈ usernames fs) :
    register_user g k fs u p =
      (.ok false, (load_users g k fs).2.1, (load_users g k fs).2.2) := by
  have hmem : u ∈ (load_users g k fs).1.map (fun r => r.username) := by
    rw [load_users_table_usernames]
    exact hu
  simp only [register_user]
  rw [if_pos hmem]

theorem register_user_fresh (g : Nat → Nat) (k : Nat) (fs : FS) {u p : Str}
    (hu : u ∉ usernames fs) (hp : NUL ∉ p) :
    register_user g k fs u p =
      (.ok true,
       ⟨some ((load_users g k fs).1 ++
         [⟨u, mkHash (g (load_users g k fs).2.2) (p.take 72)⟩])⟩,
       (load_users g k fs).2.2 + 1) := by
  have hmem : u ∉ (load_users g k fs).1.map (fun r => r.username) := by
    rw [load_users_table_usernames]
    exact hu
  simp only [register_user]
  rw [if_neg hmem]
  unfold hash_password hashpw
  rw [if_neg hp]
  rfl

theorem forall2_migratedFrom_refl (l : List UserRec) :
    List.Forall₂ migratedFrom l l := by
  induction l with
  | nil => exact List.Forall₂.nil
  | cons a l ih => exact List.Forall₂.cons (migratedFrom_refl a) ih

theorem post_register_clean (g : Nat → Nat) (k : Nat) (fs : FS) (u h : Str)
    (hmark : hashMarker.isPrefixOf h = true) :
    ∀ x ∈ (load_users g k fs).1 ++ [(⟨u, h⟩ : UserRec)], untouched x = true := by
  intro x hx
  rcases List.mem_append.1 hx with hx1 | hx1
  · exact load_users_untouched g k fs x hx1
  · rcases List.mem_cons.1 hx1 with h2 | h2
    · subst h2
      simp [untouched, hmark]
    · simp at h2

theorem post_register_find (g : Nat → Nat) (k : Nat) (fs : FS) (u h : Str)
    (hu : u ∉ usernames fs) :
    ((load_users g k fs).1 ++ [(⟨u, h⟩ : UserRec)]).find? (fun r => r.username == u) =
      some ⟨u, h⟩ := by
  apply find?_append_first
  · intro x hx
    have hxu : x.username ∈ usernames fs := by
      rw [← load_users_table_usernames g k fs]
      exact List.mem_map_of_mem _ hx
    exact beq_eq_false_iff_ne.mpr (fun he => hu (he ▸ hxu))
  · simp

theorem register_user_hash_error (g : Nat → Nat) (k : Nat) (fs : FS) {u p : Str}
    (hu : u ∉ usernames fs) (hp : NUL ∈ p) :
    register_user g k fs u p =
      (.error (), (load_users g k fs).2.1, (load_users g k fs).2.2 + 1) := by
  have hmem : u ∉ (load_users g k fs).1.map (fun r => r.username) := by
    rw [load_users_table_usernames]
    exact hu
  simp only [register_user]
  rw [if_neg hmem]
  unfold hash_password hashpw
  rw [if_pos hp]

theorem load_users_inv (g : Nat → Nat) (k : Nat) (fs : FS) (h : UsersInv fs) :
    UsersInv (load_users g k fs).2.1 := by
  rcases fs with ⟨fOpt⟩
  cases fOpt with
  | none => exact h
  | some rows =>
    rw [load_users_some]
    cases hch : (migrateRows g k rows).2.1 with
    | false => simpa [hch] using h
    | true =>
      simp only [hch, if_true]
      show ((migrateRows g k rows).1.map (fun r => r.username)).Nodup
      rw [migrateRows_usernames]
      exact h

theorem find?_eq_some_iff_first (q : UserRec → Bool) (l : List UserRec)
    (r : UserRec) :
    l.find? q = some r ↔
      ∃ n, l.get? n = some r ∧ q r = true ∧ ∀ x ∈ l.take n, q x = false := by
  induction l with
  | nil =>
    constructor
    · intro h
      simp at h
    · rintro ⟨n, hn, -, -⟩
      cases n <;> simp at hn
  | cons a l ih =>
    cases hqa : q a with
    | true =>
      rw [List.find?_cons_of_pos _ hqa]
      constructor
      · intro h
        injection h with h
        subst h
        exact ⟨0, rfl, hqa, by intro x hx; simp at hx⟩
      · rintro ⟨n, hn, hq, hall⟩
        cases n with
        | zero =>
          injection hn with hn
          rw [hn]
        | succ n =>
          have hfalse : q a = false := hall a (by simp)
          rw [hqa] at hfalse
          cases hfalse
    | false =>
      have hna : ¬ q a = true := by simp [hqa]
      rw [List.find?_cons_of_neg _ hna, ih]
      constructor
      · rintro ⟨n, hn, hq, hall⟩
        refine ⟨n + 1, hn, hq, ?_⟩
        intro x hx
        rw [List.take_succ_cons] at hx
        rcases List.mem_cons.1 hx with h2 | h2
        · subst h2
          exact hqa
        · exact hall x h2
      · rintro ⟨n, hn, hq, hall⟩
        cases n with
        | zero =>
          injection hn with hn
          subst hn
          rw [hqa] at hq
          cases hq
        | succ n =>
          refine ⟨n, hn, hq, ?_⟩
          intro x hx
          refine hall x ?_
          rw [List.take_succ_cons]
          exact List.mem_cons_of_mem a hx

/-! Claim theorems. -/

/-- C1, counterexample to the claim as stated: the claim quantifies over
every password, but python bcrypt raises `ValueError` on a NUL-containing
password, so `register_user` propagates an exception instead of returning
success. -/
theorem register_nul_password_raises :
    (register_user (fun _ => 0) 0 ⟨none⟩ ['a'] [NUL]).1 = .error () := rfl

/-- C1 (amended): for every username not present in the user table and
every password the hasher accepts (no NUL byte), registration returns
success and a subsequent login with the same credentials returns true. -/
theorem register_fresh_then_login_succeeds (g : Nat → Nat) (k : Nat) (fs : FS)
    (u p : Str) (hu : u ∉ usernames fs) (hp : NUL ∉ p) :
    (register_user g k fs u p).1 = .ok true ∧
    (login_user g (register_user g k fs u p).2.2 (register_user g k fs u p).2.1
        u p).1 = .ok true := by
  have hreg := register_user_fresh g k fs hu hp
  rw [hreg]
  refine ⟨rfl, ?_⟩
  have hclean := post_register_clean g k fs u
    (mkHash (g (load_users g k fs).2.2) (p.take 72)) (mkHash_marker _ _)
  rw [login_user_fst]
  rw [(load_users_clean _ _ _ hclean).1]
  rw [post_register_find g k fs u
    (mkHash (g (load_users g k fs).2.2) (p.take 72)) hu]
  show check_password p (mkHash (g (load_users g k fs).2.2) (p.take 72)) = .ok true
  exact checkpw_mkHash hp _

/-- Witness for the amended C1 at a concrete input. -/
theorem register_fresh_then_login_succeeds_witness :
    ((['u'] : Str) ∉ usernames ⟨none⟩) ∧ NUL ∉ (['a'] : Str) ∧
    ((register_user (fun _ => 0) 0 ⟨none⟩ ['u'] ['a']).1 = .ok true ∧
     (login_user (fun _ => 0) (register_user (fun _ => 0) 0 ⟨none⟩ ['u'] ['a']).2.2
        (register_user (fun _ => 0) 0 ⟨none⟩ ['u'] ['a']).2.1 ['u'] ['a']).1 =
       .ok true) :=
  ⟨by decide, by decide,
    register_fresh_then_login_succeeds (fun _ => 0) 0 ⟨none⟩ ['u'] ['a']
      (by decide) (by decide)⟩

/-- C2: the spec requires `verify` to return false, and never to throw, on
a malformed hash string; `check_password` is a bare `bcrypt.checkpw` call,
which raises `ValueError` on a string that is not a bcrypt hash, and the
exception propagates to the caller. -/
theorem check_password_malformed_hash_raises :
    check_password ['x'] ['n', 'o', 't', 'a', 'h', 'a', 's', 'h'] = .error () := rfl

/-- C7: an absent users file and a present file holding only the header
row both load as the empty table, without error. -/
theorem load_absent_or_empty_table (g : Nat → Nat) (k : Nat) :
    load_users g k ⟨none⟩ = ([], ⟨none⟩, k) ∧
    load_users g k ⟨some []⟩ = ([], ⟨some []⟩, k) :=
  ⟨rfl, rfl⟩

/-- C3, counterexample to the claim as stated, on two counts.  First, with
a legacy plaintext row for the already-taken username, the refused
registration still rewrites the persisted table, because `load_users`
migrates and persists on read; in particular the stored password field for
that username changes.  Second, the claimed failure of login with a second
password needs the two passwords to differ within their first 72 bytes:
bcrypt ignores the rest, so after registering 73 copies of the letter a,
login with 72 copies followed by the letter b — a different password —
still returns true. -/
theorem register_existing_user_rewrites_file :
    ((register_user (fun _ => 0) 0 ⟨some [⟨['u'], ['a']⟩]⟩ ['u'] ['b']).1 = .ok false ∧
     (register_user (fun _ => 0) 0 ⟨some [⟨['u'], ['a']⟩]⟩ ['u'] ['b']).2.1 ≠
       ⟨some [⟨['u'], ['a']⟩]⟩) ∧
    ((List.replicate 73 'a' : Str) ≠ List.replicate 72 'a' ++ ['b'] ∧
     (login_user (fun _ => 0) 0
        (register_user (fun _ => 0) 0 ⟨none⟩ ['u'] (List.replicate 73 'a')).2.1
        ['u'] (List.replicate 72 'a' ++ ['b'])).1 = .ok true) := by
  exact ⟨⟨rfl, by decide⟩, by decide, rfl⟩

/-- C3 (amended): a registration under a taken username returns the
already-exists outcome and appends nothing: the persisted table keeps the
same rows apart from migration rewrites of password fields performed by
the load.  In the composed scenario with NUL-free passwords that differ
within their first 72 bytes (bcrypt ignores the bytes beyond them),
register of `u` with `p1` followed by register of `u` with `p2` leaves the
file exactly as the first registration wrote it, the stored hash for `u`
is unchanged, and afterwards login with `p1` returns true while login with
`p2` returns false. -/
theorem duplicate_register_no_registration (g : Nat → Nat) (k k2 k3 : Nat)
    (fs : FS) (u p1 p2 : Str) (rows : List UserRec)
    (h1 : NUL ∉ p1) (h2 : NUL ∉ p2) (hne : p1.take 72 ≠ p2.take 72) :
    (fs.usersFile = some rows → u ∈ usernames fs →
      (register_user g k fs u p2).1 = .ok false ∧
      ∃ rows2, ((register_user g k fs u p2).2.1).usersFile = some rows2 ∧
        List.Forall₂ migratedFrom rows rows2) ∧
    (u ∉ usernames fs →
      (register_user g (register_user g k fs u p1).2.2
          (register_user g k fs u p1).2.1 u p2).1 = .ok false ∧
      (register_user g (register_user g k fs u p1).2.2
          (register_user g k fs u p1).2.1 u p2).2.1 =
        (register_user g k fs u p1).2.1 ∧
      (login_user g k2 (register_user g k fs u p1).2.1 u p1).1 = .ok true ∧
      (login_user g k3 (register_user g k fs u p1).2.1 u p2).1 = .ok false) := by
  constructor
  · intro hrows hu
    rw [register_user_exists g k fs p2 hu]
    refine ⟨rfl, ?_⟩
    rcases fs with ⟨fOpt⟩
    have hOpt : fOpt = some rows := hrows
    subst hOpt
    rw [load_users_some]
    cases hch : (migrateRows g k rows).2.1 with
    | true =>
      refine ⟨(migrateRows g k rows).1, by simp [hch], migrateRows_migratedFrom g rows k⟩
    | false =>
      refine ⟨rows, by simp [hch], forall2_migratedFrom_refl rows⟩
  · intro hu
    have hreg1 := register_user_fresh g k fs hu h1
    rw [hreg1]
    have hclean := post_register_clean g k fs u
      (mkHash (g (load_users g k fs).2.2) (p1.take 72)) (mkHash_marker _ _)
    have hload := load_users_clean g ((load_users g k fs).2.2 + 1) _ hclean
    have hu2 : u ∈ usernames
        (⟨some ((load_users g k fs).1 ++
          [(⟨u, mkHash (g (load_users g k fs).2.2) (p1.take 72)⟩ : UserRec)])⟩ : FS) := by
      show u ∈ List.map _ _
      refine List.mem_map.mpr
        ⟨⟨u, mkHash (g (load_users g k fs).2.2) (p1.take 72)⟩, ?_, rfl⟩
      exact List.mem_append_right _ (List.mem_cons_self _ _)
    refine ⟨?_, ?_, ?_, ?_⟩
    · rw [register_user_exists g _ _ p2 hu2]
    · rw [register_user_exists g _ _ p2 hu2]
      exact (load_users_clean g _ _ hclean).2
    · rw [login_user_fst]
      rw [(load_users_clean g k2 _ hclean).1]
      rw [post_register_find g k fs u
        (mkHash (g (load_users g k fs).2.2) (p1.take 72)) hu]
      exact checkpw_mkHash h1 _
    · rw [login_user_fst]
      rw [(load_users_clean g k3 _ hclean).1]
      rw [post_register_find g k fs u
        (mkHash (g (load_users g k fs).2.2) (p1.take 72)) hu]
      exact checkpw_mkHash_ne h2 h1 (Ne.symm hne) _

/-- Witness for the amended C3 at a concrete input. -/
theorem duplicate_register_no_registration_witness :
    NUL ∉ (['a'] : Str) ∧ NUL ∉ (['b'] : Str) ∧
    (['a'] : Str).take 72 ≠ (['b'] : Str).take 72 ∧
    ((['u'] : Str) ∉ usernames ⟨none⟩) ∧
    ((register_user (fun _ => 0) (register_user (fun _ => 0) 0 ⟨none⟩ ['u'] ['a']).2.2
        (register_user (fun _ => 0) 0 ⟨none⟩ ['u'] ['a']).2.1 ['u'] ['b']).1 =
      .ok false ∧
     (register_user (fun _ => 0) (register_user (fun _ => 0) 0 ⟨none⟩ ['u'] ['a']).2.2
        (register_user (fun _ => 0) 0 ⟨none⟩ ['u'] ['a']).2.1 ['u'] ['b']).2.1 =
      (register_user (fun _ => 0) 0 ⟨none⟩ ['u'] ['a']).2.1 ∧
     (login_user (fun _ => 0) 5 (register_user (fun _ => 0) 0 ⟨none⟩ ['u'] ['a']).2.1
        ['u'] ['a']).1 = .ok true ∧
     (login_user (fun _ => 0) 7 (register_user (fun _ => 0) 0 ⟨none⟩ ['u'] ['a']).2.1
        ['u'] ['b']).1 = .ok false) :=
  ⟨by decide, by decide, by decide, by decide,
    (duplicate_register_no_registration (fun _ => 0) 0 5 7 ⟨none⟩ ['u'] ['a'] ['b'] []
      (by decide) (by decide) (by decide)).2 (by decide)⟩

/-- C4, counterexample to the claim as stated: a legacy row whose stored
value contains a NUL byte is not replaced by the first load (the hasher
raises, the `try`/`except` keeps the row), although its password field
lacks the recognized marker; nothing is rewritten or persisted. -/
theorem load_leaves_unhashable_legacy_row :
    hashMarker.isPrefixOf ([NUL] : Str) = false ∧
    (load_users (fun _ => 0) 0 ⟨some [⟨['u'], [NUL]⟩]⟩).1 = [⟨['u'], [NUL]⟩] ∧
    (load_users (fun _ => 0) 0 ⟨some [⟨['u'], [NUL]⟩]⟩).2.1 =
      ⟨some [⟨['u'], [NUL]⟩]⟩ :=
  ⟨rfl, rfl, rfl⟩

/-- C4 (amended): for a stored table holding a legacy row (password field
without the recognized marker) whose value the hasher accepts (no NUL
byte), the first load replaces that field with its hash and persists the
whole table immediately; a second load returns the same table and leaves
the file unchanged; and login with the original plaintext succeeds both on
the original state and on the migrated state, the row being the first with
its username. -/
theorem migration_idempotent (g g2 : Nat → Nat) (k k2 : Nat)
    (xs ys : List UserRec) (u plain : Str)
    (hm : hashMarker.isPrefixOf plain = false) (hn : NUL ∉ plain)
    (hfirst : ∀ r ∈ xs, r.username ≠ u) :
    (load_users g k ⟨some (xs ++ ⟨u, plain⟩ :: ys)⟩).1 =
      (migrateRows g k xs).1 ++
        ⟨u, mkHash (g (migrateRows g k xs).2.2) (plain.take 72)⟩ ::
          (migrateRows g ((migrateRows g k xs).2.2 + 1) ys).1 ∧
    (load_users g k ⟨some (xs ++ ⟨u, plain⟩ :: ys)⟩).2.1 =
      ⟨some (load_users g k ⟨some (xs ++ ⟨u, plain⟩ :: ys)⟩).1⟩ ∧
    (load_users g2 k2 (load_users g k ⟨some (xs ++ ⟨u, plain⟩ :: ys)⟩).2.1).1 =
      (load_users g k ⟨some (xs ++ ⟨u, plain⟩ :: ys)⟩).1 ∧
    (load_users g2 k2 (load_users g k ⟨some (xs ++ ⟨u, plain⟩ :: ys)⟩).2.1).2.1 =
      (load_users g k ⟨some (xs ++ ⟨u, plain⟩ :: ys)⟩).2.1 ∧
    (login_user g k ⟨some (xs ++ ⟨u, plain⟩ :: ys)⟩ u plain).1 = .ok true ∧
    (login_user g2 k2 (load_users g k ⟨some (xs ++ ⟨u, plain⟩ :: ys)⟩).2.1
        u plain).1 = .ok true := by
  have hmid := migrateRow_of_legacy g (migrateRows g k xs).2.2
    (r := ⟨u, plain⟩) hm hn
  have happ : migrateRows g k (xs ++ ⟨u, plain⟩ :: ys) =
      ((migrateRows g k xs).1 ++
         ⟨u, mkHash (g (migrateRows g k xs).2.2) (plain.take 72)⟩ ::
           (migrateRows g ((migrateRows g k xs).2.2 + 1) ys).1,
       true,
       (migrateRows g ((migrateRows g k xs).2.2 + 1) ys).2.2) := by
    rw [migrateRows_append g xs (⟨u, plain⟩ :: ys) k, migrateRows_cons, hmid]
    simp
  have htab : (load_users g k ⟨some (xs ++ ⟨u, plain⟩ :: ys)⟩).1 =
      (migrateRows g k xs).1 ++
        ⟨u, mkHash (g (migrateRows g k xs).2.2) (plain.take 72)⟩ ::
          (migrateRows g ((migrateRows g k xs).2.2 + 1) ys).1 := by
    rw [load_users_some, happ]
  have hfs : (load_users g k ⟨some (xs ++ ⟨u, plain⟩ :: ys)⟩).2.1 =
      ⟨some ((migrateRows g k xs).1 ++
        ⟨u, mkHash (g (migrateRows g k xs).2.2) (plain.take 72)⟩ ::
          (migrateRows g ((migrateRows g k xs).2.2 + 1) ys).1)⟩ := by
    rw [load_users_some, happ]
    rfl
  have hclean : ∀ x ∈ (migrateRows g k xs).1 ++
      ⟨u, mkHash (g (migrateRows g k xs).2.2) (plain.take 72)⟩ ::
        (migrateRows g ((migrateRows g k xs).2.2 + 1) ys).1,
      untouched x = true := by
    intro x hx
    rcases List.mem_append.1 hx with h | h
    · exact migrateRows_untouched g xs k x h
    · rcases List.mem_cons.1 h with h2 | h2
      · subst h2
        simp [untouched, mkHash_marker]
      · exact migrateRows_untouched g ys _ x h2
  have hfind : ((migrateRows g k xs).1 ++
      ⟨u, mkHash (g (migrateRows g k xs).2.2) (plain.take 72)⟩ ::
        (migrateRows g ((migrateRows g k xs).2.2 + 1) ys).1).find?
        (fun r => r.username == u) =
      some ⟨u, mkHash (g (migrateRows g k xs).2.2) (plain.take 72)⟩ := by
    apply find?_append_first
    · intro x hx
      have hxu : x.username ∈ xs.map (fun r => r.username) := by
        rw [← migrateRows_usernames g xs k]
        exact List.mem_map_of_mem _ hx
      rcases List.mem_map.1 hxu with ⟨r, hr, he⟩
      exact beq_eq_false_iff_ne.mpr (he ▸ hfirst r hr)
    · simp
  refine ⟨htab, ?_, ?_, ?_, ?_, ?_⟩
  · rw [hfs, htab]
  · rw [hfs, htab]
    exact (load_users_clean g2 k2 _ hclean).1
  · rw [hfs]
    exact (load_users_clean g2 k2 _ hclean).2
  · rw [login_user_fst, htab, hfind]
    exact checkpw_mkHash hn _
  · rw [hfs, login_user_fst, (load_users_clean g2 k2 _ hclean).1, hfind]
    exact checkpw_mkHash hn _

/-- Witness for the amended C4 at a concrete input. -/
theorem migration_idempotent_witness :
    hashMarker.isPrefixOf (['a'] : Str) = false ∧ NUL ∉ (['a'] : Str) ∧
    ((load_users (fun _ => 0) 0 ⟨some [⟨['u'], ['a']⟩]⟩).1 =
        [⟨['u'], mkHash 0 ['a']⟩] ∧
     (load_users (fun _ => 0) 0 ⟨some [⟨['u'], ['a']⟩]⟩).2.1 =
        ⟨some [⟨['u'], mkHash 0 ['a']⟩]⟩ ∧
     (login_user (fun _ => 0) 0 ⟨some [⟨['u'], ['a']⟩]⟩ ['u'] ['a']).1 = .ok true) := by
  have h := migration_idempotent (fun _ => 0) (fun _ => 0) 0 0 [] [] ['u'] ['a']
    (by decide) (by decide) (by simp)
  exact ⟨by decide, by decide, h.1, h.2.1, h.2.2.2.2.1⟩

/-- C10, counterexample to the claim as stated: it quantifies over every
password, but with a NUL-containing password the hasher raises, so even
the empty username is not registered. -/
theorem register_empty_username_nul_password_raises :
    (register_user (fun _ => 0) 0 ⟨none⟩ [] [NUL]).1 = .error () := rfl

/-- C10 (amended): registration does no validation of the username: an
empty username together with any password the hasher accepts (no NUL
byte) is accepted, and a row with the empty username is appended. -/
theorem register_empty_username_succeeds (g : Nat → Nat) (k : Nat) (fs : FS)
    (p : Str) (h0 : [] ∉ usernames fs) (hp : NUL ∉ p) :
    (register_user g k fs [] p).1 = .ok true ∧
    (register_user g k fs [] p).2.1 =
      ⟨some ((load_users g k fs).1 ++
        [⟨[], mkHash (g (load_users g k fs).2.2) (p.take 72)⟩])⟩ := by
  have h := register_user_fresh g k fs h0 hp
  rw [h]
  exact ⟨rfl, rfl⟩

/-- Witness for the amended C10 at a concrete input. -/
theorem register_empty_username_succeeds_witness :
    (([] : Str) ∉ usernames ⟨none⟩) ∧ NUL ∉ (['a'] : Str) ∧
    ((register_user (fun _ => 0) 0 ⟨none⟩ [] ['a']).1 = .ok true ∧
     (register_user (fun _ => 0) 0 ⟨none⟩ [] ['a']).2.1 =
       ⟨some [⟨[], mkHash 0 ['a']⟩]⟩) :=
  ⟨by decide, by decide,
    register_empty_username_succeeds (fun _ => 0) 0 ⟨none⟩ ['a']
      (by decide) (by decide)⟩

/-- C5: login returns true exactly when the loaded (post-migration) table
has a first row matching the username (first by table order when
duplicates exist) and verification of the password against that row's
stored hash returns true; an unknown username and a failed verification
both give the same false result, indistinguishable to the caller. -/
theorem login_first_match_verification (g : Nat → Nat) (k : Nat) (fs : FS)
    (u p : Str) :
    ((login_user g k fs u p).1 = .ok true ↔
      ∃ n r, (load_users g k fs).1.get? n = some r ∧ r.username = u ∧
        (∀ x ∈ (load_users g k fs).1.take n, x.username ≠ u) ∧
        check_password p r.password = .ok true) ∧
    ((∀ r ∈ (load_users g k fs).1, r.username ≠ u) →
      (login_user g k fs u p).1 = .ok false) ∧
    (∀ n r, (load_users g k fs).1.get? n = some r → r.username = u →
      (∀ x ∈ (load_users g k fs).1.take n, x.username ≠ u) →
      check_password p r.password = .ok false →
      (login_user g k fs u p).1 = .ok false) := by
  rw [login_user_fst]
  refine ⟨?_, ?_, ?_⟩
  · constructor
    · intro h
      cases hf : (load_users g k fs).1.find? (fun r => r.username == u) with
      | none =>
        rw [hf] at h
        cases h
      | some r =>
        rw [hf] at h
        rcases (find?_eq_some_iff_first _ _ _).1 hf with ⟨n, hn, hq, hall⟩
        exact ⟨n, r, hn, beq_iff_eq.mp hq,
          fun x hx => beq_eq_false_iff_ne.mp (hall x hx), h⟩
    · rintro ⟨n, r, hn, hu, hall, hc⟩
      have hf : (load_users g k fs).1.find? (fun r => r.username == u) = some r :=
        (find?_eq_some_iff_first _ _ _).2
          ⟨n, hn, beq_iff_eq.mpr hu, fun x hx => beq_eq_false_iff_ne.mpr (hall x hx)⟩
      rw [hf]
      exact hc
  · intro h
    have hf : (load_users g k fs).1.find? (fun r => r.username == u) = none :=
      List.find?_eq_none.mpr
        (fun x hx => by simp [beq_eq_false_iff_ne.mpr (h x hx)])
    rw [hf]
  · intro n r hn hu hall hc
    have hf : (load_users g k fs).1.find? (fun r => r.username == u) = some r :=
      (find?_eq_some_iff_first _ _ _).2
        ⟨n, hn, beq_iff_eq.mpr hu, fun x hx => beq_eq_false_iff_ne.mpr (hall x hx)⟩
    rw [hf]
    exact hc

/-- Witness for C5 at a concrete input (unknown username gives false). -/
theorem login_first_match_verification_witness :
    (∀ r ∈ (load_users (fun _ => 0) 0 ⟨some []⟩).1, r.username ≠ ['u']) ∧
    (login_user (fun _ => 0) 0 ⟨some []⟩ ['u'] ['p']).1 = .ok false := by
  have hempty : ∀ r ∈ (load_users (fun _ => 0) 0 ⟨some []⟩).1,
      r.username ≠ ['u'] := by
    intro r hr
    exact absurd hr (List.not_mem_nil r)
  exact ⟨hempty,
    (login_first_match_verification (fun _ => 0) 0 ⟨some []⟩ ['u'] ['p']).2.1 hempty⟩

/-- C6: if hashing raises during the migration of one record (here: its
stored value contains a NUL byte), that record is left with its original
password field, the load does not abort, and migration continues for all
remaining records of the table. -/
theorem migration_continues_after_hash_failure (g : Nat → Nat) (k : Nat)
    (xs ys : List UserRec) (u pw : Str)
    (h1 : hashMarker.isPrefixOf pw = false) (h2 : NUL ∈ pw) :
    (load_users g k ⟨some (xs ++ ⟨u, pw⟩ :: ys)⟩).1 =
      (migrateRows g k xs).1 ++
        ⟨u, pw⟩ :: (migrateRows g ((migrateRows g k xs).2.2 + 1) ys).1 ∧
    List.Forall₂ migratedFrom ys
      (migrateRows g ((migrateRows g k xs).2.2 + 1) ys).1 := by
  have hmid := migrateRow_of_bad g (migrateRows g k xs).2.2
    (r := ⟨u, pw⟩) h1 h2
  have happ : migrateRows g k (xs ++ ⟨u, pw⟩ :: ys) =
      ((migrateRows g k xs).1 ++
         ⟨u, pw⟩ :: (migrateRows g ((migrateRows g k xs).2.2 + 1) ys).1,
       (migrateRows g k xs).2.1 ||
         (migrateRows g ((migrateRows g k xs).2.2 + 1) ys).2.1,
       (migrateRows g ((migrateRows g k xs).2.2 + 1) ys).2.2) := by
    rw [migrateRows_append g xs (⟨u, pw⟩ :: ys) k, migrateRows_cons, hmid]
    simp
  constructor
  · rw [load_users_some, happ]
  · exact migrateRows_migratedFrom g ys _

/-- Witness for C6 at a concrete input. -/
theorem migration_continues_after_hash_failure_witness :
    hashMarker.isPrefixOf ([NUL] : Str) = false ∧ NUL ∈ ([NUL] : Str) ∧
    ((load_users (fun _ => 0) 0 ⟨some [⟨['u'], [NUL]⟩, ⟨['v'], ['b']⟩]⟩).1 =
        [⟨['u'], [NUL]⟩, ⟨['v'], mkHash 0 ['b']⟩] ∧
     List.Forall₂ migratedFrom [⟨['v'], ['b']⟩] [⟨['v'], mkHash 0 ['b']⟩]) := by
  have h := migration_continues_after_hash_failure (fun _ => 0) 0 []
    [⟨['v'], ['b']⟩] ['u'] [NUL] (by decide) (by decide)
  exact ⟨by decide, by decide, h.1, h.2⟩

/-- C8: the uniqueness invariant is preserved: the migration pass rewrites
only password fields, never usernames (the loaded table carries exactly
the stored usernames), the file state left by a load keeps the invariant,
and so does the file state left by a registration, since a row is appended
only when its username is absent. -/
theorem uniqueness_invariant_preserved (g : Nat → Nat) (k : Nat) (fs : FS)
    (u p : Str) (h : UsersInv fs) :
    (load_users g k fs).1.map (fun r => r.username) = usernames fs ∧
    UsersInv (load_users g k fs).2.1 ∧
    UsersInv (register_user g k fs u p).2.1 := by
  refine ⟨load_users_table_usernames g k fs, load_users_inv g k fs h, ?_⟩
  by_cases hu : u ∈ usernames fs
  · rw [register_user_exists g k fs p hu]
    exact load_users_inv g k fs h
  · by_cases hp : NUL ∈ p
    · rw [register_user_hash_error g k fs hu hp]
      exact load_users_inv g k fs h
    · rw [register_user_fresh g k fs hu hp]
      show (((load_users g k fs).1 ++
        [(⟨u, mkHash (g (load_users g k fs).2.2) (p.take 72)⟩ : UserRec)]).map
          (fun r => r.username)).Nodup
      rw [List.map_append, load_users_table_usernames]
      simp only [List.map_cons, List.map_nil]
      rw [List.nodup_append]
      refine ⟨h, List.nodup_singleton u, ?_⟩
      intro a ha hb
      rw [List.mem_singleton] at hb
      subst hb
      exact hu ha

/-- Witness for C8 at a concrete input. -/
theorem uniqueness_invariant_preserved_witness :
    UsersInv ⟨some [⟨['u'], ['a']⟩]⟩ ∧
    ((load_users (fun _ => 0) 0 ⟨some [⟨['u'], ['a']⟩]⟩).1.map
        (fun r => r.username) = usernames ⟨some [⟨['u'], ['a']⟩]⟩ ∧
     UsersInv (load_users (fun _ => 0) 0 ⟨some [⟨['u'], ['a']⟩]⟩).2.1 ∧
     UsersInv (register_user (fun _ => 0) 0 ⟨some [⟨['u'], ['a']⟩]⟩
        ['v'] ['b']).2.1) :=
  ⟨by unfold UsersInv usernames; decide,
    uniqueness_invariant_preserved (fun _ => 0) 0 ⟨some [⟨['u'], ['a']⟩]⟩
      ['v'] ['b'] (by unfold UsersInv usernames; decide)⟩

/-- C9: saving the freshly loaded table writes exactly the loaded rows,
which differ from the stored rows only by migration rewrites of password
fields; loading the freshly saved table returns an equal table and leaves
the file exactly as saved. -/
theorem save_load_round_trip (g g2 : Nat → Nat) (k k2 : Nat) (fs : FS)
    (rows : List UserRec) (hfs : fs.usersFile = some rows) :
    List.Forall₂ migratedFrom rows (load_users g k fs).1 ∧
    save_users (load_users g k fs).1 = ⟨some (load_users g k fs).1⟩ ∧
    (load_users g2 k2 (save_users (load_users g k fs).1)).1 =
      (load_users g k fs).1 ∧
    (load_users g2 k2 (save_users (load_users g k fs).1)).2.1 =
      save_users (load_users g k fs).1 := by
  have hclean := load_users_untouched g k fs
  refine ⟨?_, rfl, ?_, ?_⟩
  · rcases fs with ⟨fOpt⟩
    have hOpt : fOpt = some rows := hfs
    subst hOpt
    rw [load_users_some]
    exact migrateRows_migratedFrom g rows k
  · exact (load_users_clean g2 k2 _ hclean).1
  · exact (load_users_clean g2 k2 _ hclean).2

/-- Witness for C9 at a concrete input. -/
theorem save_load_round_trip_witness :
    (⟨some [⟨['u'], ['a']⟩]⟩ : FS).usersFile = some [⟨['u'], ['a']⟩] ∧
    (List.Forall₂ migratedFrom [⟨['u'], ['a']⟩]
        (load_users (fun _ => 0) 0 ⟨some [⟨['u'], ['a']⟩]⟩).1 ∧
     (load_users (fun _ => 0) 1 (save_users
        (load_users (fun _ => 0) 0 ⟨some [⟨['u'], ['a']⟩]⟩).1)).1 =
       (load_users (fun _ => 0) 0 ⟨some [⟨['u'], ['a']⟩]⟩).1) := by
  have h := save_load_round_trip (fun _ => 0) (fun _ => 0) 0 1
    ⟨some [⟨['u'], ['a']⟩]⟩ [⟨['u'], ['a']⟩] rfl
  exact ⟨rfl, h.1, h.2.2.1⟩

end SmartHarvest
